import Mathlib

/-!
Verification of the fen-generator repository (src/src/lib.rs).

The Rust source is shallowly embedded: the 64-slot board array becomes a
total function `Nat → Option Piece` (all accesses performed by the program
are at indices the theorems prove to be < 64), the two random draws and the
coin flip of `Board::random` become explicit parameters, `String` values
become `List Char`, and the locals of `Board::random` (`occupied_squares`,
`free_squares_n`, `free_square_indexes`, the write cursor `j`) are hoisted
into top-level definitions with the same names.
-/

/-- Embeds the Rust `enum Color`. -/
inductive Color where
  | White
  | Black
deriving DecidableEq

/-- Embeds the Rust `enum PieceType`. -/
inductive PieceType where
  | Pawn
  | Rook
  | Knight
  | Bishop
  | Queen
  | King
deriving DecidableEq

/-- Embeds the Rust `struct Piece`. -/
structure Piece where
  piece_type : PieceType
  color : Color
deriving DecidableEq

/-- Embeds the Rust `struct Board`: `squares: [Option<Piece>; 64]` is a
function from square indices, `turn: Color`. -/
structure Board where
  squares : Nat → Option Piece
  turn : Color

/-- Embeds `fn board_index`: takes a file and a rank (0..8) and returns a
square number (0..64) as `8 * rank + file`. -/
def board_index (file rank : Nat) : Nat :=
  8 * rank + file

/-- Embeds `fn board_index_reverse`: takes an index (0..64) and returns
`(file, rank)` as `(index % 8, index / 8)`. -/
def board_index_reverse (index : Nat) : Nat × Nat :=
  (index % 8, index / 8)

/-- Embeds `Board::new`: all 64 slots `None`, turn `White`. -/
def Board.new : Board :=
  { squares := fun _ => none, turn := Color.White }

/-- Embeds the Rust ASCII uppercase conversion `u8::to_ascii_uppercase`. -/
def toAsciiUppercase (c : Char) : Char :=
  if 'a' ≤ c ∧ c ≤ 'z' then Char.ofNat (c.toNat - 32) else c

/-- Embeds `Piece::to_char`: the lowercase FEN letter of the piece type,
uppercased for White. -/
def Piece.to_char (p : Piece) : Char :=
  let letter : Char :=
    match p.piece_type with
    | PieceType.Pawn => 'p'
    | PieceType.Rook => 'r'
    | PieceType.Knight => 'n'
    | PieceType.Bishop => 'b'
    | PieceType.Queen => 'q'
    | PieceType.King => 'k'
  match p.color with
  | Color.White => toAsciiUppercase letter
  | Color.Black => letter

/-- The white king piece value placed by `Board::random`. -/
def whiteKing : Piece :=
  { piece_type := PieceType.King, color := Color.White }

/-- The black king piece value placed by `Board::random`. -/
def blackKing : Piece :=
  { piece_type := PieceType.King, color := Color.Black }

/-- Embeds the `KING_MOVES` constant of `Board::random`. -/
def KING_MOVES : List (Int × Int) :=
  [(1, 1), (1, -1), (1, 0), (0, 1), (0, -1), (-1, 1), (-1, -1), (-1, 0)]

/-- Array write on a `Nat`-indexed boolean array (models
`occupied_squares[k] = v`). -/
def boolWrite (a : Nat → Bool) (i : Nat) (v : Bool) : Nat → Bool :=
  fun k => if k = i then v else a k

/-- Array write on the board squares (models `board.squares[k] = v`). -/
def writeSquare (squares : Nat → Option Piece) (i : Nat) (p : Option Piece) :
    Nat → Option Piece :=
  fun k => if k = i then p else squares k

/-- Embeds the first loop of `Board::random`: starting from
`occupied_squares[white_king_pos] = true` and `free_squares_n = 64 - 1`, it
folds over `KING_MOVES`, marking each in-bounds neighbour of the white king
occupied and decrementing `free_squares_n`.  Returns the final
`(occupied_squares, free_squares_n)` pair. -/
def occupied_state (white_king_pos : Nat) : (Nat → Bool) × Nat :=
  let white_king_file := (board_index_reverse white_king_pos).1
  let white_king_rank := (board_index_reverse white_king_pos).2
  KING_MOVES.foldl
    (fun st delta =>
      let curr_file : Int := (white_king_file : Int) + delta.1
      let curr_rank : Int := (white_king_rank : Int) + delta.2
      if curr_file < 0 ∨ curr_rank < 0 then st
      else if 8 ≤ curr_file ∨ 8 ≤ curr_rank then st
      else (boolWrite st.1 (board_index curr_file.toNat curr_rank.toNat) true, st.2 - 1))
    (boolWrite (fun _ => false) white_king_pos true, 64 - 1)

/-- The `occupied_squares` array of `Board::random` after the neighbour loop. -/
def occupied_squares (white_king_pos : Nat) : Nat → Bool :=
  (occupied_state white_king_pos).1

/-- The `free_squares_n` counter of `Board::random` after the neighbour loop. -/
def free_squares_n (white_king_pos : Nat) : Nat :=
  (occupied_state white_king_pos).2

/-- Embeds the fill loop of `Board::random`: for `i in 0..64`, skip occupied
squares, otherwise write `i` at cursor `j` of the 60-element buffer
`free_square_indexes` and increment `j`.  Returns the final buffer and `j`. -/
def fill_state (white_king_pos : Nat) : List Nat × Nat :=
  (List.range 64).foldl
    (fun st i =>
      if occupied_squares white_king_pos i then st
      else (st.1.set st.2 i, st.2 + 1))
    (List.replicate (64 - 4) 0, 0)

/-- The `free_square_indexes` buffer of `Board::random` after the fill loop. -/
def free_square_indexes (white_king_pos : Nat) : List Nat :=
  (fill_state white_king_pos).1

/-- The final value of the cursor `j` of the fill loop of `Board::random`. -/
def fill_count (white_king_pos : Nat) : Nat :=
  (fill_state white_king_pos).2

/-- The `black_king_pos` local of `Board::random`:
`free_square_indexes[bk_draw]` where `bk_draw` is the random draw from
`0..free_squares_n` (in-bounds reads are what the array read performs; the
default of `getD` is proved unreachable for draws below `free_squares_n`). -/
def black_king_pos (white_king_pos bk_draw : Nat) : Nat :=
  (free_square_indexes white_king_pos).getD bk_draw 0

/-- Embeds `Board::random`.  The random draws are explicit parameters:
`coin` is `rng.random_bool(0.5)`, `white_king_pos` is
`rng.random_range(0..64)` and `bk_draw` is
`rng.random_range(0..free_squares_n)`. -/
def Board.random (coin : Bool) (white_king_pos bk_draw : Nat) : Board :=
  let turn :=
    match coin with
    | true => Color.White
    | false => Color.Black
  let board : Board := { Board.new with turn := turn }
  let board : Board :=
    { board with
      squares := writeSquare board.squares white_king_pos
        (some { piece_type := PieceType.King, color := Color.White }) }
  { board with
    squares := writeSquare board.squares (black_king_pos white_king_pos bk_draw)
      (some { piece_type := PieceType.King, color := Color.Black }) }

/-- The decimal digits of `n` (models `empty_squares_count.to_string()`). -/
def natChars (n : Nat) : List Char :=
  (Nat.repr n).data

/-- One step of the inner file loop of `Board::to_str_fen`: on a piece,
flush the pending empty-square count and append the piece letter; on an
empty square, increment the count. -/
def rankStep (acc : List Char × Nat) (square : Option Piece) : List Char × Nat :=
  match square with
  | some piece =>
      ((if acc.2 ≠ 0 then acc.1 ++ natChars acc.2 else acc.1) ++ [piece.to_char], 0)
  | none => (acc.1, acc.2 + 1)

/-- The inner file loop of `Board::to_str_fen` over `file in 0..8`. -/
def fenFileFold (b : Board) (rank : Nat) (init : List Char × Nat) :
    List Char × Nat :=
  (List.range 8).foldl
    (fun acc file => rankStep acc (b.squares (board_index file rank))) init

/-- The end-of-rank flush of `Board::to_str_fen`: append the pending
empty-square count if nonzero. -/
def flushCount (p : List Char × Nat) : List Char :=
  if p.2 ≠ 0 then p.1 ++ natChars p.2 else p.1

/-- One iteration of the outer rank loop of `Board::to_str_fen`: process the
rank starting from the accumulated string, flush the final count, and append
`'/'` unless this is rank 0 (where the loop breaks instead). -/
def fenRankAppend (b : Board) (fen : List Char) (rank : Nat) : List Char :=
  if rank = 0 then flushCount (fenFileFold b rank (fen, 0))
  else flushCount (fenFileFold b rank (fen, 0)) ++ ['/']

/-- The characters one rank contributes to the FEN board field (the inner
loop run from an empty accumulator, plus the end-of-rank flush). -/
def fenRankChars (b : Board) (rank : Nat) : List Char :=
  flushCount (fenFileFold b rank ([], 0))

/-- The board field of `Board::to_str_fen`: the outer loop over
`rank in (0..8).rev()`. -/
def fenBody (b : Board) : List Char :=
  ((List.range 8).reverse).foldl (fenRankAppend b) []

/-- The side-to-move character pushed by `Board::to_str_fen`. -/
def turnChar (c : Color) : Char :=
  match c with
  | Color.White => 'w'
  | Color.Black => 'b'

/-- Embeds `Board::to_str_fen`: the board field, a space, the turn
character, and the literal suffix. -/
def Board.to_str_fen (b : Board) : List Char :=
  fenBody b ++ [' '] ++ [turnChar b.turn] ++ (" - - 0 1").data

/-- One step of the inner file loop of `Board::to_str`: push the piece
letter or `'.'`. -/
def gridStep (s : List Char) (square : Option Piece) : List Char :=
  match square with
  | some piece => s ++ [piece.to_char]
  | none => s ++ ['.']

/-- The inner file loop of `Board::to_str` over `file in 0..8`. -/
def gridFileFold (b : Board) (rank : Nat) (s : List Char) : List Char :=
  (List.range 8).foldl
    (fun s file => gridStep s (b.squares (board_index file rank))) s

/-- The `Debug` rendering of a `Color` (Rust derives `Debug`). -/
def colorDebug (c : Color) : List Char :=
  match c with
  | Color.White => ("White").data
  | Color.Black => ("Black").data

/-- Embeds `Board::to_str`: for ranks 7 down to 0 push one character per
file then a newline, then `Turn: ` and the debug name of the turn. -/
def Board.to_str (b : Board) : List Char :=
  ((List.range 8).reverse).foldl
    (fun s rank => gridFileFold b rank s ++ ['\n']) []
    ++ ("Turn: ").data ++ colorDebug b.turn

/-- Embeds the public entry point `random_fen` with the random draws as
explicit parameters. -/
def random_fen (coin : Bool) (white_king_pos bk_draw : Nat) : List Char :=
  (Board.random coin white_king_pos bk_draw).to_str_fen

/-- Chebyshev distance between two square indices, through
`board_index_reverse`. -/
def chebyshev (a b : Nat) : Nat :=
  max (((board_index_reverse a).1 : Int) - ((board_index_reverse b).1 : Int)).natAbs
    (((board_index_reverse a).2 : Int) - ((board_index_reverse b).2 : Int)).natAbs

/-- The exclusion set of `Board::random`: the squares marked occupied after
the neighbour loop, in ascending order. -/
def exclusion_set (white_king_pos : Nat) : List Nat :=
  (List.range 64).filter (fun i => occupied_squares white_king_pos i)

/-- The free squares of `Board::random`: the squares not marked occupied, in
ascending order (the values the fill loop writes into
`free_square_indexes`). -/
def freeSquaresList (white_king_pos : Nat) : List Nat :=
  (List.range 64).filter (fun i => !(occupied_squares white_king_pos i))

/-- The number of king-step offsets from the white king that stay inside the
board. -/
def in_bounds_moves (white_king_pos : Nat) : Nat :=
  (KING_MOVES.filter (fun delta =>
    let curr_file : Int := ((board_index_reverse white_king_pos).1 : Int) + delta.1
    let curr_rank : Int := ((board_index_reverse white_king_pos).2 : Int) + delta.2
    decide (0 ≤ curr_file ∧ curr_file < 8 ∧ 0 ≤ curr_rank ∧ curr_rank < 8))).length

/-- All indices `board_index` produces over the 64 (file, rank) pairs. -/
def all_board_indexes : List Nat :=
  (List.range 8).flatMap (fun rank => (List.range 8).map (fun file => board_index file rank))

/-- Splits a character list on `'/'` (the field decomposition of a FEN
board string). -/
def splitOnSlash : List Char → List (List Char)
  | [] => [[]]
  | c :: cs =>
    match splitOnSlash cs with
    | [] => [[]]
    | f :: rest => if c = '/' then [] :: f :: rest else (c :: f) :: rest

/-- Numeric value of an ASCII digit. -/
def digitVal (c : Char) : Nat :=
  c.toNat - 48

/-- Whether a character is an ASCII digit. -/
def isDigitChar (c : Char) : Bool :=
  decide ('0' ≤ c) && decide (c ≤ '9')

/-- The twelve FEN piece letters. -/
def pieceLetters : List Char :=
  ['p', 'r', 'n', 'b', 'q', 'k', 'P', 'R', 'N', 'B', 'Q', 'K']

/-- Whether a character is a FEN piece letter. -/
def isPieceLetter (c : Char) : Bool :=
  pieceLetters.contains c

/-- The contribution of one character to a FEN field sum: its value for a
digit, 1 for a piece letter, 0 otherwise. -/
def scoreChar (c : Char) : Nat :=
  if isDigitChar c then digitVal c else if isPieceLetter c then 1 else 0

/-- Sum of digit values plus count of piece letters over a field. -/
def fieldScore (s : List Char) : Nat :=
  (s.map scoreChar).sum

/-- Characters a FEN rank field may contain: a digit `'1'`..`'8'` or a piece
letter. -/
def goodChar (c : Char) : Prop :=
  ('1' ≤ c ∧ c ≤ '8') ∨ isPieceLetter c = true

/-- All characters of the list are `goodChar`. -/
def GoodChars (s : List Char) : Prop :=
  ∀ c ∈ s, goodChar c

/-! ### Facts about the random placement engine, established by evaluation
over all 64 white-king squares. -/

/-- For every white-king square: the counter `free_squares_n` equals 63
minus the in-bounds neighbour count and equals the final fill cursor `j`;
the buffer keeps length 60; its first `j` entries are exactly the free
squares in ascending order and the rest are untouched zeroes; and every free
square is distinct from and non-adjacent to the white king. -/
theorem randomFillFacts : ∀ wk : Nat, wk < 64 →
    free_squares_n wk = 63 - in_bounds_moves wk ∧
    fill_count wk = free_squares_n wk ∧
    free_squares_n wk ≤ 60 ∧
    (free_square_indexes wk).length = 60 ∧
    (free_square_indexes wk).take (fill_count wk) = freeSquaresList wk ∧
    (free_square_indexes wk).drop (fill_count wk) = List.replicate (60 - fill_count wk) 0 ∧
    (∀ x ∈ freeSquaresList wk, x ≠ wk ∧ 2 ≤ chebyshev wk x ∧ x < 64) := by decide

/-- For every white-king square: the exclusion set has between 4 and 9
members, `free_squares_n` is 64 minus its size, and a square is marked
occupied exactly when it is the king's square or an in-bounds king-step
neighbour (Chebyshev distance 1). -/
theorem occupiedFacts : ∀ wk : Nat, wk < 64 →
    4 ≤ (exclusion_set wk).length ∧ (exclusion_set wk).length ≤ 9 ∧
    free_squares_n wk = 64 - (exclusion_set wk).length ∧
    (∀ i : Nat, i < 64 → (occupied_squares wk i = true ↔ (i = wk ∨ chebyshev wk i = 1))) := by
  decide

/-- Reading inside the taken prefix of a list is reading the list. -/
theorem getD_take_eq (l : List Nat) : ∀ n i : Nat, i < n → (l.take n).getD i 0 = l.getD i 0 := by
  induction l with
  | nil => intro n i _; simp
  | cons a l ih =>
    intro n i h
    cases n with
    | zero => omega
    | succ n =>
      cases i with
      | zero => simp
      | succ i =>
        simp only [List.take_succ_cons, List.getD_cons_succ]
        exact ih n i (by omega)

/-- An in-bounds `getD` read is a member of the list. -/
theorem getD_mem_of_lt (l : List Nat) : ∀ i : Nat, i < l.length → l.getD i 0 ∈ l := by
  induction l with
  | nil => intro i h; simp at h
  | cons a l ih =>
    intro i h
    cases i with
    | zero => simp
    | succ i =>
      simp only [List.getD_cons_succ]
      exact List.mem_cons_of_mem _ (ih i (by simpa using h))

/-- A black-king draw below `free_squares_n` reads one of the free squares. -/
theorem black_king_mem_free (wk d : Nat) (hwk : wk < 64) (hd : d < free_squares_n wk) :
    black_king_pos wk d ∈ freeSquaresList wk := by
  obtain ⟨h1, h2, h3, h4, h5, h6, h7⟩ := randomFillFacts wk hwk
  have hd' : d < fill_count wk := by omega
  have e1 : black_king_pos wk d = ((free_square_indexes wk).take (fill_count wk)).getD d 0 := by
    rw [black_king_pos, getD_take_eq _ _ _ hd']
  rw [e1, h5]
  apply getD_mem_of_lt
  have hlen : (freeSquaresList wk).length = fill_count wk := by
    rw [← h5, List.length_take, h4]; omega
  omega

/-- The black king square is distinct from, non-adjacent to the white king,
and on the board. -/
theorem black_king_props (wk d : Nat) (hwk : wk < 64) (hd : d < free_squares_n wk) :
    black_king_pos wk d ≠ wk ∧ 2 ≤ chebyshev wk (black_king_pos wk d) ∧
      black_king_pos wk d < 64 :=
  (randomFillFacts wk hwk).2.2.2.2.2.2 _ (black_king_mem_free wk d hwk hd)

/-- The squares of a randomly generated board are the empty board with the
white king written at `white_king_pos` and the black king at
`black_king_pos`. -/
theorem random_squares (coin : Bool) (wk d : Nat) :
    (Board.random coin wk d).squares =
      writeSquare (writeSquare (fun _ => none) wk (some whiteKing))
        (black_king_pos wk d) (some blackKing) := rfl

/-- C1: for every outcome of the random draws, the board produced by
`Board.random` places the White King and Black King on distinct squares
whose Chebyshev distance is at least 2 — the two king squares are never
equal and never king-move-adjacent. -/
theorem random_kings_apart (coin : Bool) (white_king_pos bk_draw : Nat)
    (hwk : white_king_pos < 64) (hbk : bk_draw < free_squares_n white_king_pos) :
    ∀ i j : Nat,
      (Board.random coin white_king_pos bk_draw).squares i = some whiteKing →
      (Board.random coin white_king_pos bk_draw).squares j = some blackKing →
      i ≠ j ∧ 2 ≤ chebyshev i j := by
  intro i j hi hj
  obtain ⟨hne, hcheb, hlt⟩ := black_king_props white_king_pos bk_draw hwk hbk
  rw [random_squares] at hi hj
  simp only [writeSquare] at hi hj
  by_cases hib : i = black_king_pos white_king_pos bk_draw
  · rw [if_pos hib] at hi
    exact absurd (Option.some.inj hi) (by decide)
  · rw [if_neg hib] at hi
    by_cases hiw : i = white_king_pos
    · by_cases hjb : j = black_king_pos white_king_pos bk_draw
      · subst hiw
        subst hjb
        exact ⟨fun h => hne h.symm, hcheb⟩
      · rw [if_neg hjb] at hj
        by_cases hjw : j = white_king_pos
        · rw [if_pos hjw] at hj
          exact absurd (Option.some.inj hj) (by decide)
        · rw [if_neg hjw] at hj
          exact absurd hj (by simp)
    · rw [if_neg hiw] at hi
      exact absurd hi (by simp)

/-- Witness for C1: coin true, white king on square 0, draw 0 (the black
king then lands on square 2, two files away). -/
theorem random_kings_apart_witness : (0 : Nat) ≠ 2 ∧ 2 ≤ chebyshev 0 2 :=
  random_kings_apart true 0 0 (by decide) (by decide) 0 2 (by decide) (by decide)

/-- C2: for every outcome of the random draws the generated board holds the
White King exactly on the drawn white square, the Black King exactly on the
selected free square, and `none` everywhere else. -/
theorem random_exactly_two_kings (coin : Bool) (white_king_pos bk_draw : Nat)
    (hwk : white_king_pos < 64) (hbk : bk_draw < free_squares_n white_king_pos) :
    white_king_pos ≠ black_king_pos white_king_pos bk_draw ∧
    (∀ i, (Board.random coin white_king_pos bk_draw).squares i = some whiteKing ↔
      i = white_king_pos) ∧
    (∀ i, (Board.random coin white_king_pos bk_draw).squares i = some blackKing ↔
      i = black_king_pos white_king_pos bk_draw) ∧
    (∀ i, i ≠ white_king_pos → i ≠ black_king_pos white_king_pos bk_draw →
      (Board.random coin white_king_pos bk_draw).squares i = none) := by
  obtain ⟨hne, hcheb, hlt⟩ := black_king_props white_king_pos bk_draw hwk hbk
  have hwb : white_king_pos ≠ black_king_pos white_king_pos bk_draw := fun h => hne h.symm
  refine ⟨hwb, ?_, ?_, ?_⟩
  · intro i
    rw [random_squares]
    simp only [writeSquare]
    by_cases hib : i = black_king_pos white_king_pos bk_draw
    · rw [if_pos hib]
      constructor
      · intro h
        exact absurd (Option.some.inj h) (by decide)
      · intro h
        exact absurd (h.symm.trans hib) hwb
    · rw [if_neg hib]
      by_cases hiw : i = white_king_pos
      · rw [if_pos hiw]
        simp [hiw]
      · rw [if_neg hiw]
        simp [hiw]
  · intro i
    rw [random_squares]
    simp only [writeSquare]
    by_cases hib : i = black_king_pos white_king_pos bk_draw
    · rw [if_pos hib]
      simp [hib]
    · rw [if_neg hib]
      by_cases hiw : i = white_king_pos
      · rw [if_pos hiw]
        constructor
        · intro h
          exact absurd (Option.some.inj h) (by decide)
        · intro h
          exact absurd h hib
      · rw [if_neg hiw]
        simp [hib]
  · intro i hiw hib
    rw [random_squares]
    simp only [writeSquare]
    rw [if_neg hib, if_neg hiw]

/-- Witness for C2: coin true, white king on square 0, draw 0. -/
theorem random_exactly_two_kings_witness :
    (Board.random true 0 0).squares 0 = some whiteKing ∧
    (Board.random true 0 0).squares 2 = some blackKing ∧
    (Board.random true 0 0).squares 7 = none := by
  have h := random_exactly_two_kings true 0 0 (by decide) (by decide)
  exact ⟨(h.2.1 0).mpr rfl, (h.2.2.1 2).mpr (by decide), h.2.2.2 7 (by decide) (by decide)⟩

/-- C5: the bound `free_squares_n` passed to the black-king draw equals 63
minus the in-bounds neighbour count and exactly equals the number of
entries `j` written into the 60-element buffer; the fill loop never writes
past index 59 (the cursor ends at most at 60 and the tail of the buffer is
untouched zeroes), and every draw below the bound reads an initialized,
in-bounds entry (one of the free squares). -/
theorem fill_loop_bound_exact (white_king_pos : Nat) (hwk : white_king_pos < 64) :
    free_squares_n white_king_pos = 63 - in_bounds_moves white_king_pos ∧
    free_squares_n white_king_pos = fill_count white_king_pos ∧
    fill_count white_king_pos ≤ 60 ∧
    (free_square_indexes white_king_pos).length = 60 ∧
    (free_square_indexes white_king_pos).take (fill_count white_king_pos) =
      freeSquaresList white_king_pos ∧
    (free_square_indexes white_king_pos).drop (fill_count white_king_pos) =
      List.replicate (60 - fill_count white_king_pos) 0 ∧
    (∀ d, d < free_squares_n white_king_pos →
      d < (free_square_indexes white_king_pos).length ∧
      black_king_pos white_king_pos d ∈ freeSquaresList white_king_pos) := by
  obtain ⟨h1, h2, h3, h4, h5, h6, h7⟩ := randomFillFacts white_king_pos hwk
  refine ⟨h1, h2.symm, by omega, h4, h5, h6, ?_⟩
  intro d hd
  exact ⟨by omega, black_king_mem_free white_king_pos d hwk hd⟩

/-- Witness for C5 at white king square 0. -/
theorem fill_loop_bound_exact_witness : free_squares_n 0 = fill_count 0 :=
  (fill_loop_bound_exact 0 (by decide)).2.1

/-- C8: the exclusion set has exactly the members {0,1,8,9} for a corner
king at square 0, 9 members for the interior king at square 27, between 4
and 9 members in general, and `free_squares_n` is always 64 minus its
size; a square is excluded exactly when it is the king's square or an
in-bounds king-step neighbour. -/
theorem exclusion_set_size (white_king_pos : Nat) (hwk : white_king_pos < 64) :
    4 ≤ (exclusion_set white_king_pos).length ∧
    (exclusion_set white_king_pos).length ≤ 9 ∧
    free_squares_n white_king_pos = 64 - (exclusion_set white_king_pos).length ∧
    (∀ i, i < 64 →
      (occupied_squares white_king_pos i = true ↔
        (i = white_king_pos ∨ chebyshev white_king_pos i = 1))) ∧
    exclusion_set 0 = [0, 1, 8, 9] ∧
    (exclusion_set 27).length = 9 := by
  obtain ⟨e1, e2, e3, e4⟩ := occupiedFacts white_king_pos hwk
  exact ⟨e1, e2, e3, e4, by decide, by decide⟩

/-- Witness for C8 at white king square 0. -/
theorem exclusion_set_size_witness : exclusion_set 0 = [0, 1, 8, 9] :=
  (exclusion_set_size 0 (by decide)).2.2.2.2.1

/-- C6: `board_index` is `8 * rank + file`, `board_index_reverse` inverts
it, the 64 (file, rank) pairs produce the 64 distinct indices of [0, 64),
and `board_index_reverse` returns `(square % 8, square / 8)`. -/
theorem board_index_bijection (file rank square : Nat)
    (hf : file < 8) (hr : rank < 8) (hsq : square < 64) :
    board_index file rank = 8 * rank + file ∧
    board_index_reverse (board_index file rank) = (file, rank) ∧
    all_board_indexes.Nodup ∧
    (∀ n, n < 64 → n ∈ all_board_indexes) ∧
    (∀ n ∈ all_board_indexes, n < 64) ∧
    board_index_reverse square = (square % 8, square / 8) := by
  refine ⟨rfl, ?_, by decide, by decide, by decide, rfl⟩
  have h : ∀ f : Nat, f < 8 → ∀ r : Nat, r < 8 →
      board_index_reverse (board_index f r) = (f, r) := by decide
  exact h file hf rank hr

/-- Witness for C6 at file 3, rank 4, square 10. -/
theorem board_index_bijection_witness : board_index_reverse (board_index 3 4) = (3, 4) :=
  (board_index_bijection 3 4 10 (by decide) (by decide) (by decide)).2.1

/-! ### Serializer lemmas -/

instance (c : Char) : Decidable (goodChar c) :=
  inferInstanceAs (Decidable (('1' ≤ c ∧ c ≤ '8') ∨ isPieceLetter c = true))

instance (s : List Char) : Decidable (GoodChars s) :=
  inferInstanceAs (Decidable (∀ c ∈ s, goodChar c))

/-- `rankStep` on an empty square just counts. -/
theorem rankStep_none (s : List Char) (c : Nat) : rankStep (s, c) none = (s, c + 1) := rfl

/-- `rankStep` on a piece flushes the count and appends the letter. -/
theorem rankStep_some (s : List Char) (c : Nat) (p : Piece) :
    rankStep (s, c) (some p) =
      ((if c ≠ 0 then s ++ natChars c else s) ++ [p.to_char], 0) := rfl

/-- The inner FEN loop only ever appends to the accumulated string. -/
theorem foldl_rankStep_append (cells : List (Option Piece)) :
    ∀ (s : List Char) (c : Nat),
      cells.foldl rankStep (s, c) =
        (s ++ (cells.foldl rankStep ([], c)).1, (cells.foldl rankStep ([], c)).2) := by
  induction cells with
  | nil =>
    intro s c
    simp
  | cons cell cells ih =>
    intro s c
    cases cell with
    | none =>
      simp only [List.foldl_cons, rankStep_none]
      exact ih s (c + 1)
    | some p =>
      simp only [List.foldl_cons, rankStep_some, List.nil_append]
      rw [ih ((if c ≠ 0 then s ++ natChars c else s) ++ [p.to_char]) 0,
          ih ((if c ≠ 0 then natChars c else []) ++ [p.to_char]) 0]
      by_cases hc : c = 0 <;> simp [hc, List.append_assoc]

/-- The decimal rendering of a count 1..8 is a single good digit whose
value is the count. -/
theorem natChars_facts : ∀ c : Nat, c < 9 → 1 ≤ c →
    GoodChars (natChars c) ∧ fieldScore (natChars c) = c := by decide

/-- Every piece renders to a piece letter, scoring 1. -/
theorem to_char_facts (p : Piece) :
    isPieceLetter (Piece.to_char p) = true ∧ scoreChar (Piece.to_char p) = 1 ∧
      goodChar (Piece.to_char p) := by
  obtain ⟨pt, col⟩ := p
  cases pt <;> cases col <;> decide

theorem fieldScore_append (a b : List Char) :
    fieldScore (a ++ b) = fieldScore a + fieldScore b := by
  simp [fieldScore]

theorem goodChars_append (a b : List Char) (ha : GoodChars a) (hb : GoodChars b) :
    GoodChars (a ++ b) := by
  intro c hc
  rcases List.mem_append.mp hc with h | h
  · exact ha c h
  · exact hb c h

theorem goodChars_nil : GoodChars [] := by
  intro c hc
  simp at hc

theorem goodChars_single_piece (p : Piece) : GoodChars [p.to_char] := by
  intro ch hch
  rw [List.mem_singleton.mp hch]
  exact (to_char_facts p).2.2

theorem fieldScore_single_piece (p : Piece) : fieldScore [p.to_char] = 1 := by
  simp [fieldScore, (to_char_facts p).2.1]

/-- Invariant of the inner FEN loop: characters stay good, the pending
count stays bounded, and emitted score plus pending count advances by one
per square. -/
theorem foldl_rankStep_inv (cells : List (Option Piece)) :
    ∀ (s : List Char) (c : Nat), GoodChars s → c + cells.length ≤ 8 →
      GoodChars (cells.foldl rankStep (s, c)).1 ∧
      (cells.foldl rankStep (s, c)).2 ≤ c + cells.length ∧
      fieldScore (cells.foldl rankStep (s, c)).1 + (cells.foldl rankStep (s, c)).2 =
        fieldScore s + c + cells.length := by
  induction cells with
  | nil =>
    intro s c hs _
    exact ⟨hs, by simp, by simp⟩
  | cons cell cells ih =>
    intro s c hs hc
    rw [List.length_cons] at hc
    cases cell with
    | none =>
      simp only [List.foldl_cons, rankStep_none, List.length_cons]
      obtain ⟨g1, g2, g3⟩ := ih s (c + 1) hs (by omega)
      exact ⟨g1, by omega, by omega⟩
    | some p =>
      simp only [List.foldl_cons, rankStep_some, List.length_cons]
      by_cases h0 : c = 0
      · subst h0
        have e : (if (0 : Nat) ≠ 0 then s ++ natChars 0 else s) = s := by simp
        rw [e]
        have hsc : fieldScore (s ++ [p.to_char]) = fieldScore s + 1 := by
          rw [fieldScore_append, fieldScore_single_piece]
        obtain ⟨g1, g2, g3⟩ :=
          ih (s ++ [p.to_char]) 0 (goodChars_append _ _ hs (goodChars_single_piece p)) (by omega)
        exact ⟨g1, by omega, by omega⟩
      · have e : (if c ≠ 0 then s ++ natChars c else s) = s ++ natChars c := if_pos h0
        rw [e]
        obtain ⟨n1, n2⟩ := natChars_facts c (by omega) (by omega)
        have hgood : GoodChars ((s ++ natChars c) ++ [p.to_char]) :=
          goodChars_append _ _ (goodChars_append _ _ hs n1) (goodChars_single_piece p)
        have hsc : fieldScore ((s ++ natChars c) ++ [p.to_char]) = fieldScore s + c + 1 := by
          rw [fieldScore_append, fieldScore_append, fieldScore_single_piece, n2]
        obtain ⟨g1, g2, g3⟩ := ih ((s ++ natChars c) ++ [p.to_char]) 0 hgood (by omega)
        exact ⟨g1, by omega, by omega⟩

/-- The option values of one rank, in file order. -/
def rankCells (b : Board) (rank : Nat) : List (Option Piece) :=
  (List.range 8).map (fun file => b.squares (board_index file rank))

theorem fenFileFold_eq (b : Board) (rank : Nat) (init : List Char × Nat) :
    fenFileFold b rank init = (rankCells b rank).foldl rankStep init := by
  rw [rankCells, List.foldl_map]
  rfl

theorem rankCells_length (b : Board) (rank : Nat) : (rankCells b rank).length = 8 := by
  simp [rankCells]

/-- Each FEN rank field has only good characters and scores exactly 8. -/
theorem fenRankChars_facts (b : Board) (rank : Nat) :
    GoodChars (fenRankChars b rank) ∧ fieldScore (fenRankChars b rank) = 8 := by
  obtain ⟨hg, hle, hsc⟩ :=
    foldl_rankStep_inv (rankCells b rank) [] 0 goodChars_nil (by rw [rankCells_length])
  rw [rankCells_length] at hle hsc
  have h0 : fieldScore ([] : List Char) = 0 := rfl
  rw [fenRankChars, flushCount, fenFileFold_eq]
  by_cases h2 : ((rankCells b rank).foldl rankStep ([], 0)).2 = 0
  · rw [if_neg (by omega)]
    exact ⟨hg, by omega⟩
  · rw [if_pos h2]
    obtain ⟨n1, n2⟩ := natChars_facts ((rankCells b rank).foldl rankStep ([], 0)).2
      (by omega) (by omega)
    exact ⟨goodChars_append _ _ hg n1, by rw [fieldScore_append, n2]; omega⟩

/-- Good characters are never '/'. -/
theorem goodChars_no_slash (s : List Char) (hs : GoodChars s) : '/' ∉ s := by
  intro hmem
  rcases hs _ hmem with ⟨h1, _⟩ | h
  · exact absurd h1 (by decide)
  · exact absurd h (by decide)


/-- One outer-loop iteration appends the rank field (and a slash for ranks
above 0) to the accumulated string. -/
theorem fenRankAppend_eq (b : Board) (fen : List Char) (rank : Nat) :
    fenRankAppend b fen rank =
      fen ++ (fenRankChars b rank ++ if rank = 0 then [] else ['/']) := by
  have key : flushCount (fenFileFold b rank (fen, 0)) = fen ++ fenRankChars b rank := by
    rw [fenFileFold_eq, fenRankChars, fenFileFold_eq,
        foldl_rankStep_append (rankCells b rank) fen 0]
    simp only [flushCount]
    by_cases h2 : ((rankCells b rank).foldl rankStep ([], 0)).2 = 0
    · simp [h2]
    · simp [h2, List.append_assoc]
  rw [fenRankAppend]
  by_cases h : rank = 0
  · subst h
    simp [key]
  · simp [h, key, List.append_assoc]

/-- The FEN board field is the eight rank fields joined by '/'. -/
theorem fenBody_eq (b : Board) :
    fenBody b =
      fenRankChars b 7 ++ '/' :: (fenRankChars b 6 ++ '/' :: (fenRankChars b 5 ++ '/' ::
        (fenRankChars b 4 ++ '/' :: (fenRankChars b 3 ++ '/' :: (fenRankChars b 2 ++ '/' ::
        (fenRankChars b 1 ++ '/' :: fenRankChars b 0)))))) := by
  have h : fenBody b = ([7, 6, 5, 4, 3, 2, 1, 0] : List Nat).foldl (fenRankAppend b) [] := rfl
  rw [h]
  simp only [List.foldl_cons, List.foldl_nil, fenRankAppend_eq]
  simp [List.append_assoc]

theorem splitOnSlash_ne_nil (l : List Char) : splitOnSlash l ≠ [] := by
  cases l with
  | nil => simp [splitOnSlash]
  | cons c cs =>
    simp only [splitOnSlash]
    cases h : splitOnSlash cs with
    | nil => simp
    | cons f rest => by_cases hc : c = '/' <;> simp [hc]

/-- Splitting a slash-free string yields the single field. -/
theorem splitOnSlash_no_slash (xs : List Char) (h : '/' ∉ xs) : splitOnSlash xs = [xs] := by
  induction xs with
  | nil => rfl
  | cons c cs ih =>
    have hc : c ≠ '/' := fun e => h (by rw [← e]; exact List.mem_cons_self c cs)
    have hcs : '/' ∉ cs := fun e => h (List.mem_cons_of_mem _ e)
    simp only [splitOnSlash, ih hcs]
    simp [hc]

/-- Splitting peels off a slash-free field before a '/'. -/
theorem splitOnSlash_append (xs ys : List Char) (h : '/' ∉ xs) :
    splitOnSlash (xs ++ '/' :: ys) = xs :: splitOnSlash ys := by
  induction xs with
  | nil =>
    simp only [List.nil_append, splitOnSlash]
    cases hy : splitOnSlash ys with
    | nil => exact absurd hy (splitOnSlash_ne_nil ys)
    | cons f rest => simp
  | cons c cs ih =>
    have hc : c ≠ '/' := fun e => h (by rw [← e]; exact List.mem_cons_self c cs)
    have hcs : '/' ∉ cs := fun e => h (List.mem_cons_of_mem _ e)
    simp only [List.cons_append, splitOnSlash, List.append_eq]
    rw [ih hcs]
    simp [hc]

/-- C3 counterexample: on the board of `Board.new` (any board works) the
full `to_str_fen` string does split into 8 fields on '/', but the last
field is "8 w - - 0 1" — the metadata suffix rides along — whose digit
values plus piece-letter count sum to 9, not 8.  The per-field sum
property therefore fails for the full string. -/
theorem fen_fields_counterexample :
    (splitOnSlash (Board.new.to_str_fen)).length = 8 ∧
    ¬ (∀ field ∈ splitOnSlash (Board.new.to_str_fen), fieldScore field = 8) := by
  decide

/-- C3 (amended): splitting the board field (the part of `to_str_fen`
before the space) on '/' yields exactly the 8 rank fields, emitted from
rank 7 down to rank 0 with 7 separators and none after the last, each
field's digit values plus piece-letter count summing to 8 (runs of empty
squares are run-length encoded, flushed before a piece or at end of rank);
splitting the full string also yields 8 fields, but the sum property holds
for the board field only, because the suffix " w - - 0 1" is glued to the
last field. -/
theorem fen_fields_spec (b : Board) :
    splitOnSlash (fenBody b) =
      [fenRankChars b 7, fenRankChars b 6, fenRankChars b 5, fenRankChars b 4,
       fenRankChars b 3, fenRankChars b 2, fenRankChars b 1, fenRankChars b 0] ∧
    (splitOnSlash (fenBody b)).length = 8 ∧
    (∀ field ∈ splitOnSlash (fenBody b), fieldScore field = 8) ∧
    (splitOnSlash b.to_str_fen).length = 8 := by
  have hns : ∀ r : Nat, '/' ∉ fenRankChars b r :=
    fun r => goodChars_no_slash _ (fenRankChars_facts b r).1
  have hsplit : splitOnSlash (fenBody b) =
      [fenRankChars b 7, fenRankChars b 6, fenRankChars b 5, fenRankChars b 4,
       fenRankChars b 3, fenRankChars b 2, fenRankChars b 1, fenRankChars b 0] := by
    rw [fenBody_eq, splitOnSlash_append _ _ (hns 7), splitOnSlash_append _ _ (hns 6),
        splitOnSlash_append _ _ (hns 5), splitOnSlash_append _ _ (hns 4),
        splitOnSlash_append _ _ (hns 3), splitOnSlash_append _ _ (hns 2),
        splitOnSlash_append _ _ (hns 1), splitOnSlash_no_slash _ (hns 0)]
  have hsuffix : '/' ∉ (' ' :: turnChar b.turn :: (" - - 0 1").data) := by
    cases h : b.turn <;> decide
  have hfen : b.to_str_fen = fenBody b ++ ' ' :: turnChar b.turn :: (" - - 0 1").data := by
    simp [Board.to_str_fen, List.append_assoc]
  have hlast : '/' ∉ (fenRankChars b 0 ++ (' ' :: turnChar b.turn :: (" - - 0 1").data)) := by
    intro hm
    rcases List.mem_append.mp hm with hm | hm
    · exact hns 0 hm
    · exact hsuffix hm
  have hsplitfull : splitOnSlash b.to_str_fen =
      [fenRankChars b 7, fenRankChars b 6, fenRankChars b 5, fenRankChars b 4,
       fenRankChars b 3, fenRankChars b 2, fenRankChars b 1,
       fenRankChars b 0 ++ (' ' :: turnChar b.turn :: (" - - 0 1").data)] := by
    rw [hfen, fenBody_eq]
    simp only [List.append_assoc, List.cons_append]
    rw [splitOnSlash_append _ _ (hns 7), splitOnSlash_append _ _ (hns 6),
        splitOnSlash_append _ _ (hns 5), splitOnSlash_append _ _ (hns 4),
        splitOnSlash_append _ _ (hns 3), splitOnSlash_append _ _ (hns 2),
        splitOnSlash_append _ _ (hns 1), splitOnSlash_no_slash _ hlast]
  refine ⟨hsplit, by rw [hsplit]; rfl, ?_, by rw [hsplitfull]; rfl⟩
  intro field hf
  rw [hsplit] at hf
  simp only [List.mem_cons, List.not_mem_nil, or_false] at hf
  rcases hf with h | h | h | h | h | h | h | h <;> rw [h] <;>
    exact (fenRankChars_facts b _).2

/-- C4: `to_str_fen` is the board field, then a single space, then 'w' for
White / 'b' for Black, then the literal suffix " - - 0 1"; in particular
every produced FEN ends with " - - 0 1". -/
theorem to_str_fen_structure (b : Board) :
    b.to_str_fen = fenBody b ++ ' ' :: turnChar b.turn :: (" - - 0 1").data ∧
    turnChar Color.White = 'w' ∧ turnChar Color.Black = 'b' ∧
    ∃ t, t ++ (" - - 0 1").data = b.to_str_fen := by
  have hfen : b.to_str_fen = fenBody b ++ ' ' :: turnChar b.turn :: (" - - 0 1").data := by
    simp [Board.to_str_fen, List.append_assoc]
  refine ⟨hfen, rfl, rfl, ⟨fenBody b ++ [' ', turnChar b.turn], ?_⟩⟩
  rw [hfen]
  simp [List.append_assoc]

/-- The squares of the C7 board: White King on square 0, Black King on
square 63, nothing else. -/
def corner_squares : Nat → Option Piece :=
  fun i => if i = 0 then some whiteKing else if i = 63 then some blackKing else none

/-- C7: a board holding only a White King on square 0 and a Black King on
square 63 has FEN board field "7k/8/8/8/8/8/8/K7", followed by the chosen
turn and the fixed suffix. -/
theorem corner_board_fen (b : Board) (h : ∀ i, b.squares i = corner_squares i) :
    fenBody b = ("7k/8/8/8/8/8/8/K7").data ∧
    b.to_str_fen =
      ("7k/8/8/8/8/8/8/K7").data ++ ' ' :: turnChar b.turn :: (" - - 0 1").data := by
  obtain ⟨sq, t⟩ := b
  have hs : sq = corner_squares := funext h
  subst hs
  cases t <;> exact ⟨by decide, by decide⟩

/-- Witness for C7: the concrete corner board with White to move. -/
theorem corner_board_fen_witness :
    fenBody { squares := corner_squares, turn := Color.White } =
      ("7k/8/8/8/8/8/8/K7").data :=
  (corner_board_fen { squares := corner_squares, turn := Color.White } (fun i => rfl)).1

/-- The grid character of a square: the piece letter, or '.' when empty. -/
def squareChar (square : Option Piece) : Char :=
  match square with
  | some piece => piece.to_char
  | none => '.'

/-- The characters of one rank of the grid rendering, in file order. -/
def gridRank (b : Board) (rank : Nat) : List Char :=
  (List.range 8).map (fun file => squareChar (b.squares (board_index file rank)))

/-- The grid inner loop appends one character per square. -/
theorem foldl_gridStep (cells : List (Option Piece)) :
    ∀ s : List Char, cells.foldl gridStep s = s ++ cells.map squareChar := by
  induction cells with
  | nil =>
    intro s
    simp
  | cons cell cells ih =>
    intro s
    cases cell with
    | some p =>
      simp only [List.foldl_cons, gridStep, List.map_cons, squareChar]
      rw [ih]
      simp
    | none =>
      simp only [List.foldl_cons, gridStep, List.map_cons, squareChar]
      rw [ih]
      simp

theorem gridFileFold_eq (b : Board) (rank : Nat) (s : List Char) :
    gridFileFold b rank s = s ++ gridRank b rank := by
  have h1 : gridFileFold b rank s =
      ((List.range 8).map (fun file => b.squares (board_index file rank))).foldl gridStep s := by
    rw [List.foldl_map]
    rfl
  rw [h1, foldl_gridStep, List.map_map, gridRank]
  rfl

/-- C9: the grid rendering emits ranks 7 down to 0, one character per file
(the piece letter, lowercase for Black and uppercase for White, or '.' when
empty), each rank terminated by a newline, followed by a final line
"Turn: White" / "Turn: Black" matching the board's turn; it is a total
function of the board, with the all-empty board rendered as 64 dots. -/
theorem to_str_spec (b : Board) :
    b.to_str =
      (([7, 6, 5, 4, 3, 2, 1, 0] : List Nat).map
          (fun rank => gridRank b rank ++ ['\n'])).flatten
        ++ ("Turn: ").data ++ colorDebug b.turn ∧
    colorDebug Color.White = ("White").data ∧ colorDebug Color.Black = ("Black").data ∧
    Board.new.to_str =
      ("........\n........\n........\n........\n........\n........\n........\n........\nTurn: White").data := by
  refine ⟨?_, rfl, rfl, by decide⟩
  have h : b.to_str =
      ([7, 6, 5, 4, 3, 2, 1, 0] : List Nat).foldl
          (fun s rank => gridFileFold b rank s ++ ['\n']) []
        ++ ("Turn: ").data ++ colorDebug b.turn := rfl
  rw [h]
  simp only [List.foldl_cons, List.foldl_nil, gridFileFold_eq, List.map_cons, List.map_nil,
    List.flatten_cons, List.flatten_nil]
  simp [List.append_assoc]

/-- C10: the FEN of the freshly constructed empty board. -/
theorem new_board_fen : Board.new.to_str_fen = ("8/8/8/8/8/8/8/8 w - - 0 1").data := by
  decide
